import Mathlib

/-!
# Meta-tile storage (`store.c`): shallow embedding

A verification development for the meta-tile optimised file storage of
`mod_tile` (`src/store.c`).  Individual map tiles, addressed by `(x, y, z)`,
are bundled into "meta" container files holding the `METATILE × METATILE`
block of sibling tiles: a header (magic, count, block coordinates), an index
table of `(offset, size)` entries, then the concatenated tile payloads.

The filesystem is modelled as two coordinate-indexed maps (standalone tile
files and container files); file contents are byte lists; POSIX `read`,
`write` and `lseek` on regular files are modelled by `List.take`/`List.drop`
(a read loop that accumulates until the requested length or end-of-file;
`lseek(SEEK_SET)` succeeds for every offset representable in `off_t`, even
past end-of-file).  Environment-level I/O failures (`EIO`, `malloc` failure,
failed `open` for writing) are not modelled; the corresponding error returns
(-2, -7) of `store.c` are therefore unreachable here.

The addressing collaborators (`xyz_to_meta`, `xyz_to_path`) and the on-disk
struct layout (`store.h`, `render_config.h`) are not part of `store.c`; they
are modelled from the specification, as noted on each definition.
-/

namespace Store

/-- Modelled from the spec: the block edge length `B` is the fixed
compile-time constant `METATILE` (8, "bundle the 8x8 meta tile"). -/
def METATILE : Nat := 8

/-- Modelled from the spec: the magic marker is the fixed ASCII string
`"META"`, compared byte-for-byte over its length. -/
def META_MAGIC : List Nat := [77, 69, 84, 65]

/-- `strlen(META_MAGIC)`: the number of magic bytes compared and stored. -/
def MAGIC_LEN : Nat := 4

/-- Modelled from the spec: count and block coordinates are 4-byte integers. -/
def INT_SIZE : Nat := 4

/-- Modelled from the spec: index entries hold `(offset, size)` as wide
(8-byte) integers. -/
def WIDE_SIZE : Nat := 8

/-- `sizeof(struct meta_layout)`: the fixed header fields (magic, count,
x, y, z); the index table is a trailing flexible array member and is not
included (cf. `process_meta`, which adds the index-table size separately). -/
def structSize : Nat := MAGIC_LEN + 4 * INT_SIZE

/-- `sizeof(struct entry)`: one `(offset, size)` index entry. -/
def entrySize : Nat := 2 * WIDE_SIZE

/-- The fixed entry count of every container: `METATILE * METATILE`. -/
def metaCount : Nat := METATILE * METATILE

/-- Bytes occupied by the header fields plus the full index table; equals
the initial payload offset chosen by `process_meta`. -/
def headerSize : Nat := structSize + entrySize * metaCount

/-- Size of the stack buffer `char header[4096]` that `read_from_meta`
fills from the front of the container file. -/
def headerBufSize : Nat := 4096

/-- `process_meta`'s working buffer capacity (10 MiB). -/
def BUF_PACK : Nat := 10 * 1024 * 1024

/-- `process_unpack`'s staging buffer capacity (1 MiB). -/
def BUF_UNPACK : Nat := 1024 * 1024

/-- `lseek` takes a signed `off_t`: a `size_t` offset of `2^63` or more
becomes negative and the seek fails with `EINVAL`. -/
def OFF_MAX : Nat := 2 ^ 63

/-- Modelled from the spec: the sub-index returned by the addressing
collaborator `xyz_to_meta` (`index_within_meta`): the row-major slot of the
tile inside its block, deterministic and in `[0, B*B)`. -/
def index_within_meta (x y : Nat) : Nat :=
  x % METATILE * METATILE + y % METATILE

/-- Modelled from the spec: `xyz_to_meta` places every tile of one block
under the same container path; the path is determined by the block's
top-left coordinate, obtained by rounding down to a multiple of `METATILE`. -/
def metaBase (x : Nat) : Nat := x - x % METATILE

/-- The filesystem: standalone tile files keyed by tile coordinates
(abstracting the injective `xyz_to_path`), and container files keyed by the
block's top-left coordinates (abstracting the container path of
`xyz_to_meta`). -/
structure FS where
  tiles : Nat → Nat → Nat → Option (List Nat)
  metas : Nat → Nat → Nat → Option (List Nat)

/-- Pointwise update of a coordinate-indexed file map (create, overwrite or
unlink one file). -/
def update3 (f : Nat → Nat → Nat → Option (List Nat)) (a b c : Nat)
    (v : Option (List Nat)) : Nat → Nat → Nat → Option (List Nat) :=
  fun i j k => if i = a ∧ j = b ∧ k = c then v else f i j k

/-- Little-endian byte encoding of a machine integer of width `w` bytes
(stores `n % 256^w`, as a C assignment to a fixed-width field does). -/
def natToBytes : Nat → Nat → List Nat
  | 0, _ => []
  | w + 1, n => n % 256 :: natToBytes w (n / 256)

/-- Little-endian byte decoding. -/
def bytesToNat : List Nat → Nat
  | [] => 0
  | b :: bs => b + 256 * bytesToNat bs

/-- Decode the `w`-byte field at byte offset `off` of a byte list. -/
def decodeField (l : List Nat) (off w : Nat) : Nat :=
  bytesToNat ((l.drop off).take w)

/-- The `count` header field. -/
def decodeCount (l : List Nat) : Nat := decodeField l MAGIC_LEN INT_SIZE

/-- The `x` header field. -/
def decodeX (l : List Nat) : Nat := decodeField l (MAGIC_LEN + INT_SIZE) INT_SIZE

/-- The `y` header field. -/
def decodeY (l : List Nat) : Nat := decodeField l (MAGIC_LEN + 2 * INT_SIZE) INT_SIZE

/-- The `z` header field. -/
def decodeZ (l : List Nat) : Nat := decodeField l (MAGIC_LEN + 3 * INT_SIZE) INT_SIZE

/-- Byte position of index entry `s` (`&m->index[s]`). -/
def entryPos (s : Nat) : Nat := structSize + s * entrySize

/-- The `offset` field of index entry `s`. -/
def decodeOffset (l : List Nat) (s : Nat) : Nat :=
  decodeField l (entryPos s) WIDE_SIZE

/-- The `size` field of index entry `s`. -/
def decodeSize (l : List Nat) (s : Nat) : Nat :=
  decodeField l (entryPos s + WIDE_SIZE) WIDE_SIZE

/-- Serialisation of one index entry. -/
def encodeEntry (e : Nat × Nat) : List Nat :=
  natToBytes WIDE_SIZE e.1 ++ natToBytes WIDE_SIZE e.2

/-- Serialisation of `n` consecutive index entries starting at slot `s`. -/
def encodeIndexAux (e : Nat → Nat × Nat) : Nat → Nat → List Nat
  | _, 0 => []
  | s, n + 1 => encodeEntry (e s) ++ encodeIndexAux e (s + 1) n

/-- Serialisation of the container header: magic, count, x, y, z, then the
full `metaCount`-entry index table. -/
def encodeHeader (cnt x y z : Nat) (e : Nat → Nat × Nat) : List Nat :=
  META_MAGIC ++ natToBytes INT_SIZE cnt ++ natToBytes INT_SIZE x ++
    natToBytes INT_SIZE y ++ natToBytes INT_SIZE z ++ encodeIndexAux e 0 metaCount

/-- `read_from_meta` (store.c:23-97): locate the container and slot, read
the first 4096 bytes, validate the header, look up the slot's entry, seek to
its offset, clamp its size to the caller's capacity and read the payload.
Returns the C function's signed count paired with the bytes placed in the
caller's buffer. -/
def read_from_meta (fs : FS) (x y z : Nat) (sz : Nat) : Int × List Nat :=
  let slot := index_within_meta x y
  match fs.metas (metaBase x) (metaBase y) z with
  | none => (-1, [])
  | some file =>
    let pos := min headerBufSize file.length
    let header := file.take headerBufSize
    if pos < structSize then (-3, [])
    else if header.take MAGIC_LEN ≠ META_MAGIC then (-4, [])
    else if decodeCount header ≠ metaCount then (-5, [])
    else
      let file_offset := decodeOffset header slot
      let tile_size := decodeSize header slot
      if OFF_MAX ≤ file_offset then (-6, [])
      else
        let clamped := min tile_size sz
        let data := (file.drop file_offset).take clamped
        ((data.length : Int), data)

/-- `read_from_file` (store.c:99-129): read a standalone tile file into a
buffer of capacity `sz`, accumulating until `sz` bytes or end-of-file. -/
def read_from_file (fs : FS) (x y z : Nat) (sz : Nat) : Int × List Nat :=
  match fs.tiles x y z with
  | none => (-1, [])
  | some content =>
    let data := content.take sz
    ((data.length : Int), data)

/-- `tile_read` (store.c:131-140): try the container first; on any negative
result fall back to the standalone file. -/
def tile_read (fs : FS) (x y z : Nat) (sz : Nat) : Int × List Nat :=
  let r := read_from_meta fs x y z sz
  if 0 ≤ r.1 then r else read_from_file fs x y z sz

/-- The sub-tile iteration of `process_meta`/`process_unpack`: nested loops
`for (ox...) for (oy...)` over `limit × limit` offsets, row-major
(x-outer, y-inner). -/
def coords (limit : Nat) : List (Nat × Nat) :=
  (List.range limit).flatMap fun ox => (List.range limit).map fun oy => (ox, oy)

/-- `limit = MIN(1 << z, METATILE)`: the block is clipped to the tile-grid
extent at low zoom. -/
def blockLimit (z : Nat) : Nat := min (2 ^ z) METATILE

/-- The mutable state of `process_meta`'s assembly loop: the index table
being filled, the payload accumulated so far, and the write cursor
`offset` (always `headerSize + payload.length`). -/
structure PackState where
  entries : Nat → Nat × Nat
  payload : List Nat
  offset : Nat

/-- The sub-tile loop of `process_meta` (store.c:164-184): read each
standalone tile into the buffer tail; abort (returning `none`) if a read
fails or returns no bytes; otherwise record `(offset, len)` in the slot of
that tile and advance the cursor. -/
def packLoop (fs : FS) (x y z : Nat) : List (Nat × Nat) → PackState → Option PackState
  | [], st => some st
  | p :: rest, st =>
    let r := read_from_file fs (x + p.1) (y + p.2) z (BUF_PACK - st.offset)
    let mt := index_within_meta (x + p.1) (y + p.2)
    if r.1 ≤ 0 then none
    else
      packLoop fs x y z rest
        ⟨fun s => if s = mt then (st.offset, r.2.length) else st.entries s,
          st.payload ++ r.2, st.offset + r.2.length⟩

/-- The zero-initialised buffer before the loop: `memset` zeroes the header
and index region; the cursor starts right past it. -/
def initState : PackState := ⟨fun _ => (0, 0), [], headerSize⟩

/-- Running `process_meta`'s assembly loop over the whole (clipped) block. -/
def packResult (fs : FS) (x y z : Nat) : Option PackState :=
  packLoop fs x y z (coords (blockLimit z)) initState

/-- The `unlink` loop of `process_meta` (store.c:218-224): remove the
now-redundant standalone tile files of the block. -/
def unlinkLoop (x y z : Nat) : List (Nat × Nat) → FS → FS
  | [], fs => fs
  | p :: rest, fs =>
    unlinkLoop x y z rest
      { fs with tiles := update3 fs.tiles (x + p.1) (y + p.2) z none }

/-- `process_meta` (store.c:143-225): assemble the block; on any sub-tile
failure return with the filesystem untouched; otherwise stamp the header
(magic, count, x, y, z), write header + index + payload as the container
file, and unlink the packed standalone tiles. -/
def process_meta (fs : FS) (x y z : Nat) : FS :=
  match packResult fs x y z with
  | none => fs
  | some st =>
    let file := encodeHeader metaCount x y z st.entries ++ st.payload
    unlinkLoop x y z (coords (blockLimit z))
      { fs with metas := update3 fs.metas (metaBase x) (metaBase y) z (some file) }

/-- The sub-tile loop of `process_unpack` (store.c:293-302): read each tile
from the container; on `len <= 0` log and continue; otherwise `write_tile`
the bytes as a standalone file. -/
def unpackLoop (x y z : Nat) : List (Nat × Nat) → FS → FS
  | [], fs => fs
  | p :: rest, fs =>
    let r := read_from_meta fs (x + p.1) (y + p.2) z BUF_UNPACK
    let fs1 :=
      if r.1 ≤ 0 then fs
      else { fs with tiles := update3 fs.tiles (x + p.1) (y + p.2) z (some r.2) }
    unpackLoop x y z rest fs1

/-- `process_unpack` (store.c:274-307): explode the container back into
standalone files (leniently, slot by slot), then unlink the container
unconditionally. The name-to-coordinate parsing collaborator is abstracted:
the block coordinates are taken directly. -/
def process_unpack (fs : FS) (x y z : Nat) : FS :=
  let fs1 := unpackLoop x y z (coords (blockLimit z)) fs
  { fs1 with metas := update3 fs1.metas (metaBase x) (metaBase y) z none }

/-- Offset/size chain: the entry list starts at `start` and each entry
begins where the previous one ended (contiguous payload). -/
def chained : Nat → List (Nat × Nat) → Prop
  | _, [] => True
  | start, e :: rest => e.1 = start ∧ chained (start + e.2) rest

/-- Total payload length of the tiles at the given block offsets. -/
def sizesSum (fs : FS) (x y z : Nat) (cs : List (Nat × Nat)) : Nat :=
  (cs.map fun p => ((fs.tiles (x + p.1) (y + p.2) z).getD []).length).sum

/-! ## Byte encoding lemmas -/

theorem natToBytes_length (w : Nat) : ∀ n, (natToBytes w n).length = w := by
  induction w with
  | zero => intro n; rfl
  | succ w ih => intro n; simp [natToBytes, ih]

theorem bytesToNat_natToBytes (w : Nat) : ∀ n, n < 256 ^ w →
    bytesToNat (natToBytes w n) = n := by
  induction w with
  | zero => intro n h; interval_cases n; rfl
  | succ w ih =>
    intro n h
    have hdiv : n / 256 < 256 ^ w := by
      rw [Nat.div_lt_iff_lt_mul (by norm_num)]
      calc n < 256 ^ (w + 1) := h
        _ = 256 ^ w * 256 := by ring
    simp only [natToBytes, bytesToNat, ih (n / 256) hdiv]
    omega

theorem encodeEntry_length (e : Nat × Nat) : (encodeEntry e).length = entrySize := by
  simp [encodeEntry, natToBytes_length, entrySize, WIDE_SIZE]

theorem encodeIndexAux_length (e : Nat → Nat × Nat) :
    ∀ n s, (encodeIndexAux e s n).length = entrySize * n := by
  intro n
  induction n with
  | zero => intro s; simp [encodeIndexAux]
  | succ n ih =>
    intro s
    simp [encodeIndexAux, encodeEntry_length, ih]
    ring

/-- The fixed header fields of the container. -/
theorem encodeHeader_eq (cnt x y z : Nat) (e : Nat → Nat × Nat) :
    encodeHeader cnt x y z e =
      (META_MAGIC ++ natToBytes INT_SIZE cnt ++ natToBytes INT_SIZE x ++
        natToBytes INT_SIZE y ++ natToBytes INT_SIZE z) ++ encodeIndexAux e 0 metaCount := by
  simp [encodeHeader]

theorem encodeHeader_length (cnt x y z : Nat) (e : Nat → Nat × Nat) :
    (encodeHeader cnt x y z e).length = headerSize := by
  simp [encodeHeader, META_MAGIC, natToBytes_length, encodeIndexAux_length,
    headerSize, structSize, MAGIC_LEN, INT_SIZE]
  omega

theorem structSize_eq : structSize = 20 := rfl

theorem headerSize_eq : headerSize = 1044 := rfl

/-- Dropping the fixed header fields of an encoded container lands on the
index table. -/
theorem drop_structSize_encodeHeader (cnt x y z : Nat) (e : Nat → Nat × Nat)
    (pl : List Nat) :
    ((encodeHeader cnt x y z e ++ pl).drop structSize) =
      encodeIndexAux e 0 metaCount ++ pl := by
  rw [encodeHeader_eq, List.append_assoc]
  exact List.drop_left' (by simp [META_MAGIC, natToBytes_length, structSize, MAGIC_LEN, INT_SIZE])

/-- Dropping `entrySize * k` bytes inside the serialised index table lands
on the `k`-th following entry. -/
theorem encodeIndexAux_drop (e : Nat → Nat × Nat) :
    ∀ n k s, k < n →
      (encodeIndexAux e s n).drop (entrySize * k) =
        encodeEntry (e (s + k)) ++ encodeIndexAux e (s + k + 1) (n - k - 1) := by
  intro n
  induction n with
  | zero => intro k s h; omega
  | succ n ih =>
    intro k s h
    match k with
    | 0 => simp [encodeIndexAux]
    | k + 1 =>
      have hk : k < n := by omega
      have hlen : (encodeEntry (e s)).length = entrySize := encodeEntry_length _
      calc (encodeIndexAux e s (n + 1)).drop (entrySize * (k + 1))
          = (encodeEntry (e s) ++ encodeIndexAux e (s + 1) n).drop
              ((encodeEntry (e s)).length + entrySize * k) := by
            rw [hlen]; congr 1; ring
        _ = (encodeIndexAux e (s + 1) n).drop (entrySize * k) := List.drop_append _
        _ = encodeEntry (e (s + 1 + k)) ++ encodeIndexAux e (s + 1 + k + 1) (n - k - 1) :=
            ih k (s + 1) hk
        _ = encodeEntry (e (s + (k + 1))) ++
              encodeIndexAux e (s + (k + 1) + 1) (n + 1 - (k + 1) - 1) := by
            have h2 : s + 1 + k = s + (k + 1) := by omega
            have h3 : n - k - 1 = n + 1 - (k + 1) - 1 := by omega
            rw [h2, h3]

/-- Dropping to `entryPos s` of an encoded container lands on entry `s`. -/
theorem drop_entryPos_encodeHeader (cnt x y z : Nat) (e : Nat → Nat × Nat)
    (pl : List Nat) {s : Nat} (hs : s < metaCount) :
    (encodeHeader cnt x y z e ++ pl).drop (entryPos s) =
      encodeEntry (e s) ++ (encodeIndexAux e (s + 1) (metaCount - s - 1) ++ pl) := by
  have h1 : entryPos s = structSize + entrySize * s := by
    simp [entryPos]; ring
  have h2 : entrySize * s ≤ (encodeIndexAux e 0 metaCount).length := by
    rw [encodeIndexAux_length]
    exact Nat.mul_le_mul_left entrySize (Nat.le_of_lt hs)
  have h3 := encodeIndexAux_drop e metaCount s 0 hs
  rw [h1, ← List.drop_drop, drop_structSize_encodeHeader,
    List.drop_append_of_le_length h2, h3]
  simp [List.append_assoc]

/-- Decoding a field that lies within the first `n` bytes is unaffected by
truncating the file to `n` bytes (the 4096-byte header buffer). -/
theorem decodeField_take (l : List Nat) {off w n : Nat} (h : off + w ≤ n) :
    decodeField (l.take n) off w = decodeField l off w := by
  unfold decodeField
  rw [List.drop_take, List.take_take, Nat.min_eq_left (by omega)]

theorem magic_take_encodeHeader (cnt x y z : Nat) (e : Nat → Nat × Nat)
    (pl : List Nat) :
    ((encodeHeader cnt x y z e ++ pl).take headerBufSize).take MAGIC_LEN = META_MAGIC := by
  rw [List.take_take, Nat.min_eq_left (by norm_num [MAGIC_LEN, headerBufSize]),
    encodeHeader_eq, List.append_assoc, List.append_assoc, List.append_assoc,
    List.append_assoc, List.append_assoc]
  exact List.take_left' rfl

theorem decodeCount_encodeHeader (cnt x y z : Nat) (e : Nat → Nat × Nat)
    (pl : List Nat) (h : cnt < 256 ^ INT_SIZE) :
    decodeCount (encodeHeader cnt x y z e ++ pl) = cnt := by
  unfold decodeCount decodeField
  rw [show encodeHeader cnt x y z e ++ pl =
        META_MAGIC ++ (natToBytes INT_SIZE cnt ++ (natToBytes INT_SIZE x ++
          (natToBytes INT_SIZE y ++ (natToBytes INT_SIZE z ++
            (encodeIndexAux e 0 metaCount ++ pl))))) from by
      simp [encodeHeader]]
  rw [show MAGIC_LEN = META_MAGIC.length from rfl, List.drop_left,
    List.take_left' (natToBytes_length _ _), bytesToNat_natToBytes _ _ h]

theorem decodeX_encodeHeader (cnt x y z : Nat) (e : Nat → Nat × Nat)
    (pl : List Nat) (h : x < 256 ^ INT_SIZE) :
    decodeX (encodeHeader cnt x y z e ++ pl) = x := by
  unfold decodeX decodeField
  rw [show encodeHeader cnt x y z e ++ pl =
        (META_MAGIC ++ natToBytes INT_SIZE cnt) ++ (natToBytes INT_SIZE x ++
          (natToBytes INT_SIZE y ++ (natToBytes INT_SIZE z ++
            (encodeIndexAux e 0 metaCount ++ pl)))) from by
      simp [encodeHeader]]
  rw [show MAGIC_LEN + INT_SIZE = (META_MAGIC ++ natToBytes INT_SIZE cnt).length from by
      simp [META_MAGIC, natToBytes_length, MAGIC_LEN, INT_SIZE],
    List.drop_left, List.take_left' (natToBytes_length _ _), bytesToNat_natToBytes _ _ h]

theorem decodeY_encodeHeader (cnt x y z : Nat) (e : Nat → Nat × Nat)
    (pl : List Nat) (h : y < 256 ^ INT_SIZE) :
    decodeY (encodeHeader cnt x y z e ++ pl) = y := by
  unfold decodeY decodeField
  rw [show encodeHeader cnt x y z e ++ pl =
        (META_MAGIC ++ natToBytes INT_SIZE cnt ++ natToBytes INT_SIZE x) ++
          (natToBytes INT_SIZE y ++ (natToBytes INT_SIZE z ++
            (encodeIndexAux e 0 metaCount ++ pl))) from by
      simp [encodeHeader]]
  rw [show MAGIC_LEN + 2 * INT_SIZE =
        (META_MAGIC ++ natToBytes INT_SIZE cnt ++ natToBytes INT_SIZE x).length from by
      simp [META_MAGIC, natToBytes_length, MAGIC_LEN, INT_SIZE],
    List.drop_left, List.take_left' (natToBytes_length _ _), bytesToNat_natToBytes _ _ h]

theorem decodeZ_encodeHeader (cnt x y z : Nat) (e : Nat → Nat × Nat)
    (pl : List Nat) (h : z < 256 ^ INT_SIZE) :
    decodeZ (encodeHeader cnt x y z e ++ pl) = z := by
  unfold decodeZ decodeField
  rw [show encodeHeader cnt x y z e ++ pl =
        (META_MAGIC ++ natToBytes INT_SIZE cnt ++ natToBytes INT_SIZE x ++
          natToBytes INT_SIZE y) ++ (natToBytes INT_SIZE z ++
            (encodeIndexAux e 0 metaCount ++ pl)) from by
      simp [encodeHeader]]
  rw [show MAGIC_LEN + 3 * INT_SIZE =
        (META_MAGIC ++ natToBytes INT_SIZE cnt ++ natToBytes INT_SIZE x ++
          natToBytes INT_SIZE y).length from by
      simp [META_MAGIC, natToBytes_length, MAGIC_LEN, INT_SIZE],
    List.drop_left, List.take_left' (natToBytes_length _ _), bytesToNat_natToBytes _ _ h]

theorem decodeOffset_encodeHeader (cnt x y z : Nat) (e : Nat → Nat × Nat)
    (pl : List Nat) {s : Nat} (hs : s < metaCount) (h : (e s).1 < 256 ^ WIDE_SIZE) :
    decodeOffset (encodeHeader cnt x y z e ++ pl) s = (e s).1 := by
  unfold decodeOffset decodeField
  rw [drop_entryPos_encodeHeader cnt x y z e pl hs, encodeEntry, List.append_assoc,
    List.take_left' (natToBytes_length _ _), bytesToNat_natToBytes _ _ h]

theorem decodeSize_encodeHeader (cnt x y z : Nat) (e : Nat → Nat × Nat)
    (pl : List Nat) {s : Nat} (hs : s < metaCount) (h : (e s).2 < 256 ^ WIDE_SIZE) :
    decodeSize (encodeHeader cnt x y z e ++ pl) s = (e s).2 := by
  unfold decodeSize decodeField
  rw [← List.drop_drop, drop_entryPos_encodeHeader cnt x y z e pl hs, encodeEntry,
    List.append_assoc, List.drop_left' (natToBytes_length _ _),
    List.take_left' (natToBytes_length _ _), bytesToNat_natToBytes _ _ h]

/-- The whole index table lies inside the 4096-byte header buffer. -/
theorem entryPos_bound {s : Nat} (hs : s < metaCount) :
    entryPos s + entrySize ≤ headerSize := by
  have : s + 1 ≤ metaCount := hs
  calc entryPos s + entrySize = structSize + entrySize * (s + 1) := by
        simp [entryPos, entrySize]; ring
    _ ≤ structSize + entrySize * metaCount := by
        have := Nat.mul_le_mul_left entrySize this
        omega
    _ = headerSize := rfl

theorem headerSize_le_headerBufSize : headerSize ≤ headerBufSize := by decide

/-! ## Iteration-order lemmas -/

theorem mem_coords {n : Nat} {p : Nat × Nat} : p ∈ coords n ↔ p.1 < n ∧ p.2 < n := by
  obtain ⟨a, b⟩ := p
  simp only [coords, List.mem_flatMap, List.mem_map, List.mem_range, Prod.mk.injEq]
  constructor
  · rintro ⟨ox, hox, oy, hoy, rfl, rfl⟩
    exact ⟨hox, hoy⟩
  · rintro ⟨h1, h2⟩
    exact ⟨a, h1, b, h2, rfl, rfl⟩

theorem coords_pairwise_ne (n : Nat) : (coords n).Pairwise (fun p q => p ≠ q) := by
  unfold coords
  rw [List.pairwise_flatMap]
  refine ⟨fun a _ => ?_, ?_⟩
  · rw [List.pairwise_map]
    refine (List.pairwise_lt_range n).imp ?_
    intro b c hbc h
    exact absurd (congrArg Prod.snd h) (by simpa using Nat.ne_of_lt hbc)
  · refine (List.pairwise_lt_range n).imp ?_
    intro a b hab x hx y hy
    rw [List.mem_map] at hx hy
    obtain ⟨bx, -, rfl⟩ := hx
    obtain ⟨cx, -, rfl⟩ := hy
    intro h
    exact absurd (congrArg Prod.fst h) (by simpa using Nat.ne_of_lt hab)

theorem coords_nodup (n : Nat) : (coords n).Nodup := coords_pairwise_ne n

/-! ## Read helpers -/

/-- `read_from_meta` looks only at container files, never at standalone
tiles. -/
theorem read_from_meta_congr {fs fs' : FS} (h : fs.metas = fs'.metas)
    (x y z sz : Nat) : read_from_meta fs x y z sz = read_from_meta fs' x y z sz := by
  unfold read_from_meta
  rw [h]

theorem read_from_file_some {fs : FS} {x y z : Nat} {t : List Nat} (sz : Nat)
    (h : fs.tiles x y z = some t) :
    read_from_file fs x y z sz = (((t.take sz).length : Int), t.take sz) := by
  unfold read_from_file
  rw [h]

/-- A standalone tile that fits the buffer is read in full. -/
theorem read_from_file_full {fs : FS} {x y z : Nat} {t : List Nat} {sz : Nat}
    (h : fs.tiles x y z = some t) (hsz : t.length ≤ sz) :
    read_from_file fs x y z sz = ((t.length : Int), t) := by
  rw [read_from_file_some sz h, List.take_of_length_le hsz]

/-! ## Pack loop specification -/

theorem sizesSum_nil (fs : FS) (x y z : Nat) : sizesSum fs x y z [] = 0 := rfl

theorem sizesSum_cons (fs : FS) (x y z : Nat) (p : Nat × Nat) (cs : List (Nat × Nat)) :
    sizesSum fs x y z (p :: cs) =
      ((fs.tiles (x + p.1) (y + p.2) z).getD []).length + sizesSum fs x y z cs := by
  simp [sizesSum]

/-- Specification of a successful pack loop: when every sub-tile of `cs` is
present with non-empty content, the whole payload fits the working buffer
and the slots of `cs` are pairwise distinct, the loop succeeds; the payload
is the concatenation of the tile contents in iteration order, the cursor
advances by the total size, untouched slots keep their entries, and each
coordinate's slot records the cursor position where its content was placed
together with that content's length. -/
theorem packLoop_spec (fs : FS) (x y z : Nat) :
    ∀ (cs : List (Nat × Nat)) (st : PackState),
      (∀ p ∈ cs, ∃ t, fs.tiles (x + p.1) (y + p.2) z = some t ∧ t ≠ []) →
      st.offset + sizesSum fs x y z cs ≤ BUF_PACK →
      cs.Pairwise (fun p q =>
        index_within_meta (x + p.1) (y + p.2) ≠ index_within_meta (x + q.1) (y + q.2)) →
      ∃ st' : PackState,
        packLoop fs x y z cs st = some st' ∧
        st'.payload = st.payload ++
          cs.flatMap (fun p => (fs.tiles (x + p.1) (y + p.2) z).getD []) ∧
        st'.offset = st.offset + sizesSum fs x y z cs ∧
        (∀ s, (∀ p ∈ cs, index_within_meta (x + p.1) (y + p.2) ≠ s) →
          st'.entries s = st.entries s) ∧
        (∀ l₁ p l₂, cs = l₁ ++ p :: l₂ →
          st'.entries (index_within_meta (x + p.1) (y + p.2)) =
            (st.offset + sizesSum fs x y z l₁,
              ((fs.tiles (x + p.1) (y + p.2) z).getD []).length)) := by
  intro cs
  induction cs with
  | nil =>
    intro st _ _ _
    refine ⟨st, rfl, by simp, by simp [sizesSum_nil], fun s _ => rfl, ?_⟩
    intro l₁ p l₂ h
    exact absurd h (by simp)
  | cons c rest ih =>
    intro st hp hcap hpw
    obtain ⟨t, ht, htne⟩ := hp c (List.mem_cons_self c rest)
    have hgetD : (fs.tiles (x + c.1) (y + c.2) z).getD [] = t := by rw [ht]; rfl
    have hsum : sizesSum fs x y z (c :: rest) = t.length + sizesSum fs x y z rest := by
      rw [sizesSum_cons, hgetD]
    have hcap' : t.length ≤ BUF_PACK - st.offset := by
      rw [hsum] at hcap; omega
    have hread : read_from_file fs (x + c.1) (y + c.2) z (BUF_PACK - st.offset) =
        ((t.length : Int), t) := read_from_file_full ht hcap'
    have hpos : 0 < t.length := List.length_pos.mpr htne
    have hifneg : ¬ ((t.length : Int) ≤ 0) := by omega
    set st1 : PackState :=
      ⟨fun s => if s = index_within_meta (x + c.1) (y + c.2) then (st.offset, t.length)
          else st.entries s,
        st.payload ++ t, st.offset + t.length⟩ with hst1
    have hstep : packLoop fs x y z (c :: rest) st = packLoop fs x y z rest st1 := by
      simp only [packLoop, hread]
      rw [if_neg hifneg]
    rw [List.pairwise_cons] at hpw
    obtain ⟨hpwc, hpwrest⟩ := hpw
    obtain ⟨st', hloop, hpay, hoff, hunch, hsplit⟩ :=
      ih st1 (fun p hmem => hp p (List.mem_cons_of_mem c hmem))
        (by rw [hsum] at hcap; simp only [hst1]; omega) hpwrest
    refine ⟨st', by rw [hstep]; exact hloop, ?_, ?_, ?_, ?_⟩
    · rw [hpay, hst1]
      simp [hgetD, List.append_assoc]
    · rw [hoff, hst1, hsum]
      simp; omega
    · intro s hs
      rw [hunch s (fun p hmem => hs p (List.mem_cons_of_mem c hmem)), hst1]
      have : s ≠ index_within_meta (x + c.1) (y + c.2) :=
        fun h => (hs c (List.mem_cons_self c rest)) h.symm
      simp [this]
    · intro l₁ p l₂ hcs
      match l₁, hcs with
      | [], hcs =>
        have hpc : p = c := by have := congrArg (fun l => l.head?) hcs; simpa using this.symm
        have hl₂ : rest = l₂ := by simpa using congrArg (fun l => l.tail) hcs
        subst hpc
        subst hl₂
        have huc : st'.entries (index_within_meta (x + p.1) (y + p.2)) =
            st1.entries (index_within_meta (x + p.1) (y + p.2)) :=
          hunch _ (fun q hq => (hpwc q hq).symm)
        rw [huc, hst1]
        simp [sizesSum_nil, hgetD]
      | c' :: l₁', hcs =>
        have hcc : c' = c := by have := congrArg (fun l => l.head?) hcs; simpa using this.symm
        have hrest : rest = l₁' ++ p :: l₂ := by
          simpa using congrArg (fun l => l.tail) hcs
        subst hcc
        rw [hsplit l₁' p l₂ hrest, hst1]
        have : sizesSum fs x y z (c' :: l₁') = t.length + sizesSum fs x y z l₁' := by
          rw [sizesSum_cons, hgetD]
        rw [this]
        simp [Prod.ext_iff]
        omega

/-! ## Unpack and unlink loop lemmas -/

/-- Writing standalone tiles never touches container files. -/
theorem unpackLoop_metas (x y z : Nat) :
    ∀ (cs : List (Nat × Nat)) (fs : FS), (unpackLoop x y z cs fs).metas = fs.metas := by
  intro cs
  induction cs with
  | nil => intro fs; rfl
  | cons c rest ih =>
    intro fs
    unfold unpackLoop
    rw [ih]
    by_cases h : (read_from_meta fs (x + c.1) (y + c.2) z BUF_UNPACK).1 ≤ 0 <;> simp [h]

/-- Coordinates outside the processed set are untouched by the unpack loop. -/
theorem unpackLoop_tiles_untouched (x y z : Nat) :
    ∀ (cs : List (Nat × Nat)) (fs : FS) (i j k : Nat),
      (∀ p ∈ cs, ¬(i = x + p.1 ∧ j = y + p.2 ∧ k = z)) →
      (unpackLoop x y z cs fs).tiles i j k = fs.tiles i j k := by
  intro cs
  induction cs with
  | nil => intro fs i j k _; rfl
  | cons c rest ih =>
    intro fs i j k h
    unfold unpackLoop
    rw [ih _ i j k (fun p hp => h p (List.mem_cons_of_mem c hp))]
    by_cases hc : (read_from_meta fs (x + c.1) (y + c.2) z BUF_UNPACK).1 ≤ 0
    · simp [hc]
    · simp only [if_neg hc]
      show update3 fs.tiles (x + c.1) (y + c.2) z _ i j k = fs.tiles i j k
      unfold update3
      rw [if_neg (h c (List.mem_cons_self c rest))]

/-- Two distinct block offsets translate to distinct tile coordinates. -/
theorem coord_inj {x y : Nat} {p q : Nat × Nat}
    (h : x + p.1 = x + q.1 ∧ y + p.2 = y + q.2) : p = q := by
  obtain ⟨a, b⟩ := p
  obtain ⟨c, d⟩ := q
  simp only [Prod.mk.injEq] at h ⊢
  omega

/-- The outcome of the unpack loop at each processed coordinate: the tile
file holds the bytes read from the container if that read returned a
positive count, and is untouched otherwise.  Reads are relative to the
filesystem at loop entry, which is sound because tile writes do not affect
container reads. -/
theorem unpackLoop_tiles_mem (x y z : Nat) :
    ∀ (cs : List (Nat × Nat)) (fs : FS), cs.Pairwise (fun p q => p ≠ q) →
      ∀ p ∈ cs,
        (unpackLoop x y z cs fs).tiles (x + p.1) (y + p.2) z =
          (if (read_from_meta fs (x + p.1) (y + p.2) z BUF_UNPACK).1 ≤ 0 then
            fs.tiles (x + p.1) (y + p.2) z
          else some (read_from_meta fs (x + p.1) (y + p.2) z BUF_UNPACK).2) := by
  intro cs
  induction cs with
  | nil => intro fs _ p hp; exact absurd hp (by simp)
  | cons c rest ih =>
    intro fs hpw p hp
    rw [List.pairwise_cons] at hpw
    obtain ⟨hpwc, hpwrest⟩ := hpw
    by_cases hc : (read_from_meta fs (x + c.1) (y + c.2) z BUF_UNPACK).1 ≤ 0
    · have hstep : unpackLoop x y z (c :: rest) fs = unpackLoop x y z rest fs := by
        conv_lhs => unfold unpackLoop
        dsimp only
        rw [if_pos hc]
      rcases List.mem_cons.mp hp with hpc | hpr
      · subst hpc
        rw [hstep, if_pos hc]
        exact unpackLoop_tiles_untouched x y z rest fs _ _ _
          (fun q hq hco => hpwc q hq (coord_inj ⟨hco.1, hco.2.1⟩))
      · rw [hstep]
        exact ih fs hpwrest p hpr
    · set t := (read_from_meta fs (x + c.1) (y + c.2) z BUF_UNPACK).2 with hts
      set fs1 : FS :=
        { fs with tiles := update3 fs.tiles (x + c.1) (y + c.2) z (some t) } with hfs1
      have hstep : unpackLoop x y z (c :: rest) fs = unpackLoop x y z rest fs1 := by
        conv_lhs => unfold unpackLoop
        dsimp only
        rw [if_neg hc]
      have hmetas : fs1.metas = fs.metas := rfl
      rcases List.mem_cons.mp hp with hpc | hpr
      · subst hpc
        rw [hstep, if_neg hc,
          unpackLoop_tiles_untouched x y z rest fs1 _ _ _
            (fun q hq hco => hpwc q hq (coord_inj ⟨hco.1, hco.2.1⟩))]
        show update3 fs.tiles (x + p.1) (y + p.2) z (some t) (x + p.1) (y + p.2) z = some t
        unfold update3
        rw [if_pos ⟨rfl, rfl, rfl⟩]
      · have hread : read_from_meta fs1 (x + p.1) (y + p.2) z BUF_UNPACK =
            read_from_meta fs (x + p.1) (y + p.2) z BUF_UNPACK :=
          read_from_meta_congr hmetas _ _ _ _
        have htile : fs1.tiles (x + p.1) (y + p.2) z = fs.tiles (x + p.1) (y + p.2) z := by
          show update3 fs.tiles (x + c.1) (y + c.2) z (some t) (x + p.1) (y + p.2) z = _
          unfold update3
          rw [if_neg (fun hco => hpwc p hpr (coord_inj ⟨hco.1, hco.2.1⟩).symm)]
        rw [hstep, ih fs1 hpwrest p hpr, hread, htile]

/-- Unlinking standalone tiles never touches container files. -/
theorem unlinkLoop_metas (x y z : Nat) :
    ∀ (cs : List (Nat × Nat)) (fs : FS), (unlinkLoop x y z cs fs).metas = fs.metas := by
  intro cs
  induction cs with
  | nil => intro fs; rfl
  | cons c rest ih => intro fs; unfold unlinkLoop; rw [ih]

/-! ## Block-alignment arithmetic -/

theorem index_within_meta_lt (x y : Nat) : index_within_meta x y < metaCount := by
  have h1 : x % METATILE < METATILE := Nat.mod_lt _ (by norm_num [METATILE])
  have h2 : y % METATILE < METATILE := Nat.mod_lt _ (by norm_num [METATILE])
  unfold index_within_meta metaCount
  unfold METATILE at h1 h2 ⊢
  omega

theorem add_mod_eq_of_aligned {x ox : Nat} (hx : x % METATILE = 0)
    (hox : ox < METATILE) : (x + ox) % METATILE = ox := by
  unfold METATILE at hx hox ⊢
  omega

theorem metaBase_aligned {x : Nat} (hx : x % METATILE = 0) {ox : Nat}
    (hox : ox < METATILE) : metaBase (x + ox) = x := by
  have h := add_mod_eq_of_aligned hx hox
  unfold metaBase
  omega

theorem slot_aligned {x y : Nat} (hx : x % METATILE = 0) (hy : y % METATILE = 0)
    {ox oy : Nat} (hox : ox < METATILE) (hoy : oy < METATILE) :
    index_within_meta (x + ox) (y + oy) = ox * METATILE + oy := by
  have h1 := add_mod_eq_of_aligned hx hox
  have h2 := add_mod_eq_of_aligned hy hoy
  unfold index_within_meta
  rw [h1, h2]

/-- The slots of the iterated block coordinates are pairwise distinct (for
any base coordinate, aligned or not). -/
theorem slots_pairwise (x y z : Nat) :
    (coords (blockLimit z)).Pairwise (fun p q =>
      index_within_meta (x + p.1) (y + p.2) ≠ index_within_meta (x + q.1) (y + q.2)) := by
  refine (coords_pairwise_ne _).imp_of_mem ?_
  intro p q hp hq hne heq
  apply hne
  have hpb := mem_coords.mp hp
  have hqb := mem_coords.mp hq
  have hlim : blockLimit z ≤ METATILE := Nat.min_le_right _ _
  obtain ⟨a, b⟩ := p
  obtain ⟨c, d⟩ := q
  simp only [Prod.mk.injEq]
  simp only at hpb hqb
  have ha : a < METATILE := lt_of_lt_of_le hpb.1 hlim
  have hb : b < METATILE := lt_of_lt_of_le hpb.2 hlim
  have hc : c < METATILE := lt_of_lt_of_le hqb.1 hlim
  have hd : d < METATILE := lt_of_lt_of_le hqb.2 hlim
  unfold index_within_meta at heq
  simp only at heq
  unfold METATILE at ha hb hc hd heq
  omega

/-! ## Reading a freshly packed container -/

/-- Reading tile `(x, y, z)` from a container file that is a serialised
header-plus-payload: all header checks pass, and the slot's recorded
`(offset, size)` entry determines the bytes returned (the size clamped to
the caller's capacity, the read stopping at end-of-file). -/
theorem read_from_meta_encoded {fs : FS} {x y z : Nat} (sz : Nat)
    {bx yb zb : Nat} {e : Nat → Nat × Nat} {pl : List Nat}
    (hfs : fs.metas (metaBase x) (metaBase y) z =
      some (encodeHeader metaCount bx yb zb e ++ pl))
    (hoff : (e (index_within_meta x y)).1 < OFF_MAX)
    (hsiz : (e (index_within_meta x y)).2 < 256 ^ WIDE_SIZE) :
    read_from_meta fs x y z sz =
      (let data := ((encodeHeader metaCount bx yb zb e ++ pl).drop
          (e (index_within_meta x y)).1).take (min (e (index_within_meta x y)).2 sz)
      ((data.length : Int), data)) := by
  have hs : index_within_meta x y < metaCount := index_within_meta_lt x y
  have hoffb : (e (index_within_meta x y)).1 < 256 ^ WIDE_SIZE :=
    lt_of_lt_of_le hoff (by norm_num [OFF_MAX, WIDE_SIZE])
  have hlen : (encodeHeader metaCount bx yb zb e ++ pl).length = headerSize + pl.length := by
    simp [encodeHeader_length]
  have hmagic := magic_take_encodeHeader metaCount bx yb zb e pl
  have hentrybound := entryPos_bound hs
  have hcount : decodeCount ((encodeHeader metaCount bx yb zb e ++ pl).take headerBufSize) =
      metaCount := by
    unfold decodeCount
    rw [decodeField_take _ (by decide)]
    exact decodeCount_encodeHeader _ _ _ _ _ _ (by decide)
  have hoffeq : decodeOffset ((encodeHeader metaCount bx yb zb e ++ pl).take headerBufSize)
      (index_within_meta x y) = (e (index_within_meta x y)).1 := by
    unfold decodeOffset
    rw [decodeField_take _ (by
      have := headerSize_le_headerBufSize
      unfold entrySize WIDE_SIZE at hentrybound
      unfold WIDE_SIZE
      omega)]
    exact decodeOffset_encodeHeader _ _ _ _ _ _ hs hoffb
  have hsizeq : decodeSize ((encodeHeader metaCount bx yb zb e ++ pl).take headerBufSize)
      (index_within_meta x y) = (e (index_within_meta x y)).2 := by
    unfold decodeSize
    rw [decodeField_take _ (by
      have := headerSize_le_headerBufSize
      unfold entrySize WIDE_SIZE at hentrybound
      unfold WIDE_SIZE
      omega)]
    exact decodeSize_encodeHeader _ _ _ _ _ _ hs hsiz
  unfold read_from_meta
  rw [hfs]
  dsimp only
  rw [if_neg (by
      rw [hlen]
      have := headerSize_le_headerBufSize
      unfold headerBufSize at *
      unfold headerSize structSize MAGIC_LEN INT_SIZE at *
      omega),
    if_neg (fun h => h hmagic),
    if_neg (fun h => h hcount),
    hoffeq, hsizeq, if_neg (not_le.mpr hoff)]

/-! ## Pack-then-unpack assembly -/

theorem metaBase_self {x : Nat} (hx : x % METATILE = 0) : metaBase x = x := by
  unfold metaBase
  omega

theorem update3_self (f : Nat → Nat → Nat → Option (List Nat)) (a b c : Nat)
    (v : Option (List Nat)) : update3 f a b c v a b c = v := by
  unfold update3
  rw [if_pos ⟨rfl, rfl, rfl⟩]

theorem sizesSum_append (fs : FS) (x y z : Nat) (l₁ l₂ : List (Nat × Nat)) :
    sizesSum fs x y z (l₁ ++ l₂) = sizesSum fs x y z l₁ + sizesSum fs x y z l₂ := by
  simp [sizesSum]

theorem flatMap_tiles_length (fs : FS) (x y z : Nat) (cs : List (Nat × Nat)) :
    (cs.flatMap fun p => (fs.tiles (x + p.1) (y + p.2) z).getD []).length =
      sizesSum fs x y z cs := by
  induction cs with
  | nil => rfl
  | cons c rest ih => simp [sizesSum_cons, ih]

theorem process_meta_eq_of_some {fs : FS} {x y z : Nat} {st : PackState}
    (h : packResult fs x y z = some st) :
    process_meta fs x y z = unlinkLoop x y z (coords (blockLimit z))
      { fs with metas := update3 fs.metas (metaBase x) (metaBase y) z (some (encodeHeader metaCount x y z st.entries ++ st.payload)) } := by
  unfold process_meta
  rw [h]

theorem process_meta_eq_of_none {fs : FS} {x y z : Nat}
    (h : packResult fs x y z = none) : process_meta fs x y z = fs := by
  unfold process_meta
  rw [h]

/-- The complete round trip on an aligned block of present, non-empty
tiles, each fitting the unpack staging buffer, whose total payload fits the
pack working buffer: every tile is reproduced byte-identically as a
standalone file and the container is removed again. -/
theorem pack_unpack_core (fs : FS) (x y z : Nat) (t : Nat → Nat → List Nat)
    (hx : x % METATILE = 0) (hy : y % METATILE = 0)
    (htiles : ∀ ox oy, ox < blockLimit z → oy < blockLimit z →
      fs.tiles (x + ox) (y + oy) z = some (t ox oy))
    (hne : ∀ ox oy, ox < blockLimit z → oy < blockLimit z → t ox oy ≠ [])
    (hsize : ∀ ox oy, ox < blockLimit z → oy < blockLimit z →
      (t ox oy).length ≤ BUF_UNPACK)
    (htotal : headerSize + sizesSum fs x y z (coords (blockLimit z)) ≤ BUF_PACK) :
    (∀ ox oy, ox < blockLimit z → oy < blockLimit z →
      (process_unpack (process_meta fs x y z) x y z).tiles (x + ox) (y + oy) z =
        some (t ox oy)) ∧
    (process_unpack (process_meta fs x y z) x y z).metas x y z = none := by
  have hlim : blockLimit z ≤ METATILE := Nat.min_le_right _ _
  set cs := coords (blockLimit z) with hcs
  have hmem : ∀ p ∈ cs, p.1 < blockLimit z ∧ p.2 < blockLimit z := fun p hp =>
    mem_coords.mp hp
  have hp : ∀ p ∈ cs, ∃ tp, fs.tiles (x + p.1) (y + p.2) z = some tp ∧ tp ≠ [] :=
    fun p hmem' => ⟨t p.1 p.2, htiles _ _ (hmem p hmem').1 (hmem p hmem').2,
      hne _ _ (hmem p hmem').1 (hmem p hmem').2⟩
  obtain ⟨st, hloop, hpay, hoffeq, hunch, hsplit⟩ :=
    packLoop_spec fs x y z cs initState hp (by exact htotal) (slots_pairwise x y z)
  have hpack : packResult fs x y z = some st := hloop
  set file := encodeHeader metaCount x y z st.entries ++ st.payload with hfile
  have hfsP : (process_meta fs x y z).metas = update3 fs.metas x y z (some file) := by
    rw [process_meta_eq_of_some hpack, unlinkLoop_metas, metaBase_self hx, metaBase_self hy]
  -- read back each tile from the container
  have hread : ∀ p ∈ cs,
      read_from_meta (process_meta fs x y z) (x + p.1) (y + p.2) z BUF_UNPACK =
        (((t p.1 p.2).length : Int), t p.1 p.2) := by
    intro p hpmem
    obtain ⟨hp1, hp2⟩ := hmem p hpmem
    obtain ⟨l₁, l₂, hsplit_eq⟩ := List.append_of_mem hpmem
    have hslot := hsplit l₁ p l₂ hsplit_eq
    have hgetD : (fs.tiles (x + p.1) (y + p.2) z).getD [] = t p.1 p.2 := by
      rw [htiles _ _ hp1 hp2]
      rfl
    have hsum_le : sizesSum fs x y z l₁ ≤ sizesSum fs x y z cs := by
      rw [hsplit_eq, sizesSum_append]
      omega
    have hkey : (process_meta fs x y z).metas (metaBase (x + p.1)) (metaBase (y + p.2)) z =
        some file := by
      rw [metaBase_aligned hx (lt_of_lt_of_le hp1 hlim),
        metaBase_aligned hy (lt_of_lt_of_le hp2 hlim), hfsP, update3_self]
    have hentry : st.entries (index_within_meta (x + p.1) (y + p.2)) =
        (headerSize + sizesSum fs x y z l₁, (t p.1 p.2).length) := by
      rw [hslot, hgetD]
      rfl
    have hoffb : (st.entries (index_within_meta (x + p.1) (y + p.2))).1 < OFF_MAX := by
      rw [hentry]
      have hbp : BUF_PACK < OFF_MAX := by decide
      simp only
      omega
    have hsizb : (st.entries (index_within_meta (x + p.1) (y + p.2))).2 < 256 ^ WIDE_SIZE := by
      rw [hentry]
      have := hsize _ _ hp1 hp2
      have hbu : BUF_UNPACK < 256 ^ WIDE_SIZE := by decide
      simp only
      omega
    rw [read_from_meta_encoded BUF_UNPACK hkey hoffb hsizb]
    have hdata : (file.drop (st.entries (index_within_meta (x + p.1) (y + p.2))).1).take
        (min (st.entries (index_within_meta (x + p.1) (y + p.2))).2 BUF_UNPACK) =
          t p.1 p.2 := by
      rw [hentry]
      simp only
      rw [Nat.min_eq_left (hsize _ _ hp1 hp2)]
      have hpayload : st.payload =
          (l₁.flatMap fun q => (fs.tiles (x + q.1) (y + q.2) z).getD []) ++
            (t p.1 p.2 ++
              l₂.flatMap fun q => (fs.tiles (x + q.1) (y + q.2) z).getD []) := by
        rw [hpay, hsplit_eq]
        simp [hgetD, initState]
      have hdrop : file.drop (headerSize + sizesSum fs x y z l₁) =
          t p.1 p.2 ++ l₂.flatMap fun q => (fs.tiles (x + q.1) (y + q.2) z).getD [] := by
        rw [hfile, show headerSize + sizesSum fs x y z l₁ =
            (encodeHeader metaCount x y z st.entries).length + sizesSum fs x y z l₁ from by
          rw [encodeHeader_length], List.drop_append, hpayload,
          List.drop_left' (flatMap_tiles_length fs x y z l₁)]
      rw [hdrop, List.take_left' rfl]
    rw [hdata]
  -- run the unpack loop
  have hcsnodup := coords_pairwise_ne (blockLimit z)
  have htl : ∀ p ∈ cs,
      (process_unpack (process_meta fs x y z) x y z).tiles (x + p.1) (y + p.2) z =
        some (t p.1 p.2) := by
    intro p hpmem
    obtain ⟨hp1, hp2⟩ := hmem p hpmem
    have := unpackLoop_tiles_mem x y z cs (process_meta fs x y z) hcsnodup p hpmem
    have hposlen : ¬ (((t p.1 p.2).length : Int) ≤ 0) := by
      have := List.length_pos.mpr (hne _ _ hp1 hp2)
      omega
    show (unpackLoop x y z cs (process_meta fs x y z)).tiles (x + p.1) (y + p.2) z =
      some (t p.1 p.2)
    rw [this, hread p hpmem]
    simp only
    rw [if_neg hposlen]
  refine ⟨fun ox oy h1 h2 => htl (ox, oy) (mem_coords.mpr ⟨h1, h2⟩), ?_⟩
  show update3 (unpackLoop x y z cs (process_meta fs x y z)).metas
    (metaBase x) (metaBase y) z none x y z = none
  rw [metaBase_self hx, metaBase_self hy, update3_self]

/-! ## Aborting pack loop -/

/-- If any coordinate of `cs` has a missing or empty standalone tile, the
pack loop aborts, whatever state it starts in. -/
theorem packLoop_none (fs : FS) (x y z : Nat) :
    ∀ (cs : List (Nat × Nat)) (st : PackState),
      (∃ p ∈ cs, fs.tiles (x + p.1) (y + p.2) z = none ∨
        fs.tiles (x + p.1) (y + p.2) z = some []) →
      packLoop fs x y z cs st = none := by
  intro cs
  induction cs with
  | nil =>
    rintro st ⟨p, hp, -⟩
    exact absurd hp (by simp)
  | cons c rest ih =>
    rintro st ⟨p, hp, hbad⟩
    by_cases hr : (read_from_file fs (x + c.1) (y + c.2) z (BUF_PACK - st.offset)).1 ≤ 0
    · conv_lhs => unfold packLoop
      dsimp only
      rw [if_pos hr]
    · conv_lhs => unfold packLoop
      dsimp only
      rw [if_neg hr]
      apply ih
      rcases List.mem_cons.mp hp with hpc | hpr
      · exfalso
        subst hpc
        apply hr
        unfold read_from_file
        rcases hbad with hnone | hempty
        · rw [hnone]
          simp
        · rw [hempty]
          simp
      · exact ⟨p, hpr, hbad⟩

/-! ## Chain structure of a packed index -/

theorem read_from_file_len_le (fs : FS) (x y z sz : Nat) :
    (read_from_file fs x y z sz).2.length ≤ sz := by
  unfold read_from_file
  match fs.tiles x y z with
  | none => simp
  | some content =>
    simp only
    rw [List.length_take]
    exact Nat.min_le_left _ _

/-- Any successful pack loop produces a contiguous index chain over the
iterated slots, starting at the initial cursor, and keeps every recorded
offset and size within the working buffer capacity. -/
theorem packLoop_chain (fs : FS) (x y z : Nat) :
    ∀ (cs : List (Nat × Nat)) (st st' : PackState),
      packLoop fs x y z cs st = some st' →
      cs.Pairwise (fun p q =>
        index_within_meta (x + p.1) (y + p.2) ≠ index_within_meta (x + q.1) (y + q.2)) →
      st.offset ≤ BUF_PACK →
      (∀ s, (st.entries s).1 ≤ BUF_PACK ∧ (st.entries s).2 ≤ BUF_PACK) →
      chained st.offset
        (cs.map fun p => st'.entries (index_within_meta (x + p.1) (y + p.2))) ∧
      (∀ s, (st'.entries s).1 ≤ BUF_PACK ∧ (st'.entries s).2 ≤ BUF_PACK) ∧
      (∀ s, (∀ p ∈ cs, index_within_meta (x + p.1) (y + p.2) ≠ s) →
        st'.entries s = st.entries s) := by
  intro cs
  induction cs with
  | nil =>
    intro st st' hl _ hoff hent
    obtain rfl : st = st' := by injection hl
    exact ⟨trivial, hent, fun s _ => rfl⟩
  | cons c rest ih =>
    intro st st' hl hpw hoff hent
    rw [List.pairwise_cons] at hpw
    obtain ⟨hpwc, hpwrest⟩ := hpw
    unfold packLoop at hl
    dsimp only at hl
    by_cases hr : (read_from_file fs (x + c.1) (y + c.2) z (BUF_PACK - st.offset)).1 ≤ 0
    · rw [if_pos hr] at hl
      exact absurd hl (by simp)
    · rw [if_neg hr] at hl
      have hrlen : (read_from_file fs (x + c.1) (y + c.2) z (BUF_PACK - st.offset)).2.length ≤
          BUF_PACK - st.offset := read_from_file_len_le _ _ _ _ _
      obtain ⟨hchain, hbound, huntouched⟩ := ih _ st' hl hpwrest (by dsimp only; omega) (by
        intro s
        dsimp only
        by_cases hs : s = index_within_meta (x + c.1) (y + c.2)
        · rw [if_pos hs]
          constructor
          · exact hoff
          · omega
        · rw [if_neg hs]
          exact hent s)
      refine ⟨?_, hbound, ?_⟩
      · rw [List.map_cons]
        have hc : st'.entries (index_within_meta (x + c.1) (y + c.2)) =
            (st.offset,
              (read_from_file fs (x + c.1) (y + c.2) z (BUF_PACK - st.offset)).2.length) := by
          rw [huntouched _ (fun q hq => (hpwc q hq).symm)]
          dsimp only
          rw [if_pos rfl]
        refine ⟨by rw [hc], ?_⟩
        rw [hc]
        exact hchain
      · intro s hs
        rw [huntouched s (fun q hq => hs q (List.mem_cons_of_mem c hq))]
        dsimp only
        rw [if_neg fun h => (hs c (List.mem_cons_self c rest)) h.symm]

theorem headerBufSize_eq : headerBufSize = 4096 := rfl

/-- When every read of the loop fails, the unpack loop is the identity. -/
theorem unpackLoop_all_fail (x y z : Nat) :
    ∀ (cs : List (Nat × Nat)) (fs : FS),
      (∀ p ∈ cs, (read_from_meta fs (x + p.1) (y + p.2) z BUF_UNPACK).1 ≤ 0) →
      unpackLoop x y z cs fs = fs := by
  intro cs
  induction cs with
  | nil => intro fs _; rfl
  | cons c rest ih =>
    intro fs h
    conv_lhs => unfold unpackLoop
    dsimp only
    rw [if_pos (h c (List.mem_cons_self c rest))]
    exact ih fs (fun p hp => h p (List.mem_cons_of_mem c hp))

/-- `read_from_meta` never yields more bytes, or a larger count, than the
caller's buffer capacity. -/
theorem read_from_meta_le (fs : FS) (x y z sz : Nat) :
    (read_from_meta fs x y z sz).2.length ≤ sz ∧
      (read_from_meta fs x y z sz).1 ≤ (sz : Int) := by
  unfold read_from_meta
  match hm : fs.metas (metaBase x) (metaBase y) z with
  | none =>
    refine ⟨by simp, ?_⟩
    simp only
    omega
  | some file =>
    dsimp only
    split_ifs with h1 h2 h3 h4
    · exact ⟨by simp, by simp; omega⟩
    · exact ⟨by simp, by simp; omega⟩
    · exact ⟨by simp, by simp; omega⟩
    · exact ⟨by simp, by simp; omega⟩
    · constructor
      · simp only [List.length_take]
        omega
      · simp only [List.length_take]
        omega

/-- The tile map produced by `process_unpack` is exactly the unpack loop's
result (the final step only unlinks the container). -/
theorem process_unpack_tiles (fs : FS) (x y z : Nat) :
    (process_unpack fs x y z).tiles =
      (unpackLoop x y z (coords (blockLimit z)) fs).tiles := rfl

/-! ## Claims -/

/-- C2: if any sub-tile of the (clipped) block is missing or has empty
content, `process_meta` aborts before creating the container: the
filesystem is returned entirely unchanged — no container file is written
and no still-present standalone tile is deleted. -/
theorem C2_fail_closed_pack (fs : FS) (x y z : Nat)
    (h : ∃ p ∈ coords (blockLimit z),
      fs.tiles (x + p.1) (y + p.2) z = none ∨
        fs.tiles (x + p.1) (y + p.2) z = some []) :
    process_meta fs x y z = fs :=
  process_meta_eq_of_none (packLoop_none fs x y z _ initState h)

def fsC2 : FS :=
  ⟨fun i j k => if i = 0 ∧ j = 0 ∧ k = 1 then some [3] else none,
   fun _ _ _ => none⟩

theorem C2_witness : process_meta fsC2 0 0 1 = fsC2 :=
  C2_fail_closed_pack fsC2 0 0 1 ⟨(0, 1), by decide, Or.inl (by decide)⟩

/-- C3: `tile_read` returns `read_from_meta`'s result whenever that result
is non-negative; on every negative return — container absent, wrong magic,
bad count, or any other container-level failure — it returns
`read_from_file`'s result instead, so a container with wrong magic or a bad
count is never treated as valid. -/
theorem C3_tile_read_fallback (fs : FS) (x y z sz : Nat) :
    (0 ≤ (read_from_meta fs x y z sz).1 →
      tile_read fs x y z sz = read_from_meta fs x y z sz) ∧
    ((read_from_meta fs x y z sz).1 < 0 →
      tile_read fs x y z sz = read_from_file fs x y z sz) ∧
    (∀ file, fs.metas (metaBase x) (metaBase y) z = some file →
      structSize ≤ file.length →
      ((file.take headerBufSize).take MAGIC_LEN ≠ META_MAGIC ∨
        decodeCount (file.take headerBufSize) ≠ metaCount) →
      tile_read fs x y z sz = read_from_file fs x y z sz) := by
  have h12 : (0 ≤ (read_from_meta fs x y z sz).1 →
      tile_read fs x y z sz = read_from_meta fs x y z sz) ∧
    ((read_from_meta fs x y z sz).1 < 0 →
      tile_read fs x y z sz = read_from_file fs x y z sz) := by
    unfold tile_read
    dsimp only
    constructor
    · intro h
      rw [if_pos h]
    · intro h
      rw [if_neg (by omega)]
  refine ⟨h12.1, h12.2, ?_⟩
  intro file hfile hlen hbad
  apply h12.2
  unfold read_from_meta
  rw [hfile]
  dsimp only
  have e1 : structSize = 20 := rfl
  have e2 : headerBufSize = 4096 := rfl
  rw [if_neg (show ¬ (min headerBufSize file.length < structSize) by omega)]
  by_cases hm : (file.take headerBufSize).take MAGIC_LEN = META_MAGIC
  · have hc : decodeCount (file.take headerBufSize) ≠ metaCount := by
      rcases hbad with h | h
      · exact absurd hm h
      · exact h
    rw [if_neg (fun h2 => h2 hm), if_pos hc]
    decide
  · rw [if_pos hm]
    decide

def fsC3 : FS :=
  ⟨fun i j k => if i = 0 ∧ j = 0 ∧ k = 0 then some [9, 9] else none,
   fun i j k => if i = 0 ∧ j = 0 ∧ k = 0 then
     some (List.replicate structSize 0) else none⟩

theorem C3_witness : tile_read fsC3 0 0 0 10 = read_from_file fsC3 0 0 0 10 :=
  (C3_tile_read_fallback fsC3 0 0 0 10).2.2 (List.replicate structSize 0) rfl
    (by decide) (Or.inl (by decide))

/-- C4: when the slot's recorded size exceeds the caller's buffer capacity
`sz`, the size used for reading is clamped: the returned bytes number at
most `sz` and the returned count is at most `sz` — no byte is placed past
the end of the caller's buffer. -/
theorem C4_truncation_safety (fs : FS) (x y z sz : Nat) (file : List Nat)
    (hfile : fs.metas (metaBase x) (metaBase y) z = some file)
    (hover : sz < decodeSize (file.take headerBufSize) (index_within_meta x y)) :
    (read_from_meta fs x y z sz).2.length ≤ sz ∧
      (read_from_meta fs x y z sz).1 ≤ (sz : Int) :=
  read_from_meta_le fs x y z sz

/-- A well-formed single-slot container used by several witnesses: slot 0
records `(headerSize, 5)` and the payload is the 5 bytes `[1,2,3,4,5]`. -/
def entriesW : Nat → Nat × Nat := fun s => if s = 0 then (headerSize, 5) else (0, 0)

def fileW : List Nat := encodeHeader metaCount 0 0 0 entriesW ++ [1, 2, 3, 4, 5]

def fsW : FS :=
  ⟨fun _ _ _ => none,
   fun i j k => if i = 0 ∧ j = 0 ∧ k = 0 then some fileW else none⟩

theorem C4_witness :
    (read_from_meta fsW 0 0 0 2).2.length ≤ 2 ∧
      (read_from_meta fsW 0 0 0 2).1 ≤ (2 : Int) :=
  C4_truncation_safety fsW 0 0 0 2 fileW rfl (by decide)

def fileC5 : List Nat := List.replicate structSize 66

def fsC5 : FS :=
  ⟨fun _ _ _ => none,
   fun i j k => if i = 0 ∧ j = 0 ∧ k = 0 then some fileC5 else none⟩

/-- C5 counterexample: a container of only `structSize` (20) bytes — far
fewer than `headerSize` (1044, the header fields plus the full index
table) — is not rejected with the CorruptHeader code (-3): the reader
proceeds to magic validation and returns BadMagic (-4). -/
theorem C5_counterexample :
    fileC5.length < headerSize ∧
    read_from_meta fsC5 0 0 0 100 = (-4, []) ∧
    (read_from_meta fsC5 0 0 0 100).1 ≠ -3 := by decide

/-- C5 amended: `read_from_meta` fails with CorruptHeader (-3) exactly when
the container yields fewer bytes than `structSize` — the fixed header
fields alone (`sizeof(struct meta_layout)`, excluding the index table);
once those bytes are present it proceeds to magic validation even if the
index-table region is incomplete. -/
theorem C5_short_header (fs : FS) (x y z sz : Nat) (file : List Nat)
    (hfile : fs.metas (metaBase x) (metaBase y) z = some file) :
    ((read_from_meta fs x y z sz).1 = -3 ↔ file.length < structSize) := by
  unfold read_from_meta
  rw [hfile]
  dsimp only
  have e1 : structSize = 20 := rfl
  have e2 : headerBufSize = 4096 := rfl
  by_cases h1 : min headerBufSize file.length < structSize
  · rw [if_pos h1]
    constructor
    · intro _
      omega
    · intro _
      rfl
  · rw [if_neg h1]
    constructor
    · intro habs
      exfalso
      split_ifs at habs <;> dsimp only at habs <;> omega
    · intro hlen
      exfalso
      omega

def fsC5w : FS :=
  ⟨fun _ _ _ => none,
   fun i j k => if i = 0 ∧ j = 0 ∧ k = 0 then some [1, 2, 3] else none⟩

theorem C5_witness : (read_from_meta fsC5w 0 0 0 7).1 = -3 :=
  (C5_short_header fsC5w 0 0 0 7 [1, 2, 3] rfl).mpr (by decide)

def entriesC6 : Nat → Nat × Nat := fun s => if s = 0 then (5000, 3) else (0, 0)

def fileC6 : List Nat := encodeHeader metaCount 0 0 0 entriesC6 ++ [7, 7, 7, 7, 7]

def fsC6 : FS :=
  ⟨fun _ _ _ => none,
   fun i j k => if i = 0 ∧ j = 0 ∧ k = 0 then some fileC6 else none⟩

set_option maxRecDepth 100000 in
/-- C6 counterexample: slot 0 records offset 5000, beyond the container's
1049 bytes, yet `read_from_meta` does not fail with the SeekError code
(-6): `lseek` past end-of-file succeeds and the subsequent read loop hits
end-of-file at once, returning a successful count of 0 bytes. -/
theorem C6_counterexample :
    fileC6.length < decodeOffset (fileC6.take headerBufSize) (index_within_meta 0 0) ∧
    read_from_meta fsC6 0 0 0 100 = (0, []) ∧
    (read_from_meta fsC6 0 0 0 100).1 ≠ -6 := by decide

/-- C6 amended: with a valid header, a recorded offset that exceeds the
container's length but is representable in `off_t` (`< 2^63`) does not
produce SeekError: the seek succeeds past end-of-file and the read loop
immediately hits end-of-file, so `read_from_meta` returns 0 bytes.
SeekError arises only when the seek call itself fails (offset `≥ 2^63`). -/
theorem C6_offset_beyond_eof (fs : FS) (x y z sz : Nat) (file : List Nat)
    (hfile : fs.metas (metaBase x) (metaBase y) z = some file)
    (hlen : structSize ≤ file.length)
    (hmagic : (file.take headerBufSize).take MAGIC_LEN = META_MAGIC)
    (hcount : decodeCount (file.take headerBufSize) = metaCount)
    (hofflen : file.length ≤ decodeOffset (file.take headerBufSize) (index_within_meta x y))
    (hoffmax : decodeOffset (file.take headerBufSize) (index_within_meta x y) < OFF_MAX) :
    read_from_meta fs x y z sz = (0, []) := by
  unfold read_from_meta
  rw [hfile]
  dsimp only
  have e1 : structSize = 20 := rfl
  have e2 : headerBufSize = 4096 := rfl
  rw [if_neg (by omega), if_neg (fun h => h hmagic), if_neg (fun h => h hcount),
    if_neg (not_le.mpr hoffmax), List.drop_of_length_le hofflen]
  simp

set_option maxRecDepth 100000 in
theorem C6_witness : read_from_meta fsC6 0 0 0 100 = (0, []) :=
  C6_offset_beyond_eof fsC6 0 0 0 100 fileC6 rfl (by decide) (by decide) (by decide)
    (by decide) (by decide)

/-- C7: every container successfully written by `process_meta` carries the
magic marker, `count = METATILE * METATILE` and the block coordinates in
its header, and the index entries of the processed sub-tiles, read back in
row-major (x-outer, y-inner) iteration order, form a contiguous chain of
absolute offsets: the first recorded offset is
`sizeof(header) + B*B*sizeof(entry)` (= `headerSize`) and each subsequent
recorded offset is the previously recorded offset plus the previously
recorded size. -/
theorem C7_header_invariants (fs : FS) (x y z : Nat) (st : PackState)
    (hx : x < 2 ^ 32) (hy : y < 2 ^ 32) (hz : z < 2 ^ 32)
    (hpack : packResult fs x y z = some st) :
    ∃ file, (process_meta fs x y z).metas (metaBase x) (metaBase y) z = some file ∧
      file.take MAGIC_LEN = META_MAGIC ∧
      decodeCount file = METATILE * METATILE ∧
      decodeX file = x ∧ decodeY file = y ∧ decodeZ file = z ∧
      chained headerSize ((coords (blockLimit z)).map fun p =>
        (decodeOffset file (index_within_meta (x + p.1) (y + p.2)),
          decodeSize file (index_within_meta (x + p.1) (y + p.2)))) := by
  have h32 : (2 : Nat) ^ 32 = 256 ^ INT_SIZE := by decide
  obtain ⟨hchain, hbound, -⟩ := packLoop_chain fs x y z (coords (blockLimit z)) initState st
    hpack (slots_pairwise x y z) (by decide)
    (by intro s; exact ⟨by simp [initState], by simp [initState]⟩)
  refine ⟨encodeHeader metaCount x y z st.entries ++ st.payload, ?_, ?_, ?_, ?_, ?_, ?_, ?_⟩
  · rw [process_meta_eq_of_some hpack, unlinkLoop_metas]
    exact update3_self _ _ _ _ _
  · rw [encodeHeader_eq]
    simp only [List.append_assoc]
    exact List.take_left' rfl
  · exact decodeCount_encodeHeader _ _ _ _ _ _ (by decide)
  · exact decodeX_encodeHeader _ _ _ _ _ _ (by omega)
  · exact decodeY_encodeHeader _ _ _ _ _ _ (by omega)
  · exact decodeZ_encodeHeader _ _ _ _ _ _ (by omega)
  · have hmap : ((coords (blockLimit z)).map fun p =>
        (decodeOffset (encodeHeader metaCount x y z st.entries ++ st.payload)
            (index_within_meta (x + p.1) (y + p.2)),
          decodeSize (encodeHeader metaCount x y z st.entries ++ st.payload)
            (index_within_meta (x + p.1) (y + p.2)))) =
        ((coords (blockLimit z)).map fun p =>
          st.entries (index_within_meta (x + p.1) (y + p.2))) := by
      apply List.map_congr_left
      intro p hp
      have hs := index_within_meta_lt (x + p.1) (y + p.2)
      have hb := hbound (index_within_meta (x + p.1) (y + p.2))
      have hbig : BUF_PACK < 256 ^ WIDE_SIZE := by decide
      rw [decodeOffset_encodeHeader _ _ _ _ _ _ hs (by omega),
        decodeSize_encodeHeader _ _ _ _ _ _ hs (by omega)]
    rw [hmap]
    exact hchain

def fsC7 : FS :=
  ⟨fun i j k => if i = 0 ∧ j = 0 ∧ k = 0 then some [9] else none,
   fun _ _ _ => none⟩

def stC7 : PackState :=
  ⟨fun s => if s = 0 then (headerSize, 1) else (0, 0), [9], headerSize + 1⟩

theorem C7_witness :
    ∃ file, (process_meta fsC7 0 0 0).metas (metaBase 0) (metaBase 0) 0 = some file ∧
      file.take MAGIC_LEN = META_MAGIC ∧
      decodeCount file = METATILE * METATILE ∧
      decodeX file = 0 ∧ decodeY file = 0 ∧ decodeZ file = 0 ∧
      chained headerSize ((coords (blockLimit 0)).map fun p =>
        (decodeOffset file (index_within_meta (0 + p.1) (0 + p.2)),
          decodeSize file (index_within_meta (0 + p.1) (0 + p.2)))) :=
  C7_header_invariants fsC7 0 0 0 stC7 (by decide) (by decide) (by decide) rfl

/-- C8: at a zoom `z` with `2^z < METATILE`, the iteration list that both
`process_meta` and `process_unpack` traverse — `coords (blockLimit z)` —
is clipped to `2^z`: it holds exactly `2^z * 2^z` sub-tile offsets, every
one of them inside the `2^z × 2^z` grid. -/
theorem C8_clipped_blocks (z : Nat) (h : 2 ^ z < METATILE) :
    blockLimit z = 2 ^ z ∧
    (coords (blockLimit z)).length = 2 ^ z * 2 ^ z ∧
    (∀ p ∈ coords (blockLimit z), p.1 < 2 ^ z ∧ p.2 < 2 ^ z) := by
  have hb : blockLimit z = 2 ^ z := Nat.min_eq_left (le_of_lt h)
  have hz : z < 3 := by
    by_contra hge
    push_neg at hge
    have h8 : (2 : Nat) ^ 3 ≤ 2 ^ z := Nat.pow_le_pow_right (by norm_num) hge
    have he : (2 : Nat) ^ 3 = 8 := by norm_num
    unfold METATILE at h
    omega
  refine ⟨hb, ?_, ?_⟩
  · rw [hb]
    interval_cases z <;> decide
  · intro p hp
    have := mem_coords.mp hp
    rw [hb] at this
    exact this

theorem C8_witness :
    blockLimit 1 = 2 ^ 1 ∧
    (coords (blockLimit 1)).length = 2 ^ 1 * 2 ^ 1 ∧
    (∀ p ∈ coords (blockLimit 1), p.1 < 2 ^ 1 ∧ p.2 < 2 ^ 1) :=
  C8_clipped_blocks 1 (by decide)

/-- C9: `process_unpack` unlinks the container file unconditionally after
the sub-tile loop — for every starting filesystem the container key is
empty afterwards — and when every sub-tile read fails (non-positive count)
no standalone file is written either: the tile map is returned unchanged
while the container is still destroyed. -/
theorem C9_unconditional_unlink (fs : FS) (x y z : Nat) :
    (process_unpack fs x y z).metas (metaBase x) (metaBase y) z = none ∧
    ((∀ p ∈ coords (blockLimit z),
        (read_from_meta fs (x + p.1) (y + p.2) z BUF_UNPACK).1 ≤ 0) →
      (process_unpack fs x y z).tiles = fs.tiles) := by
  constructor
  · show update3 (unpackLoop x y z (coords (blockLimit z)) fs).metas
      (metaBase x) (metaBase y) z none (metaBase x) (metaBase y) z = none
    exact update3_self _ _ _ _ _
  · intro hfail
    show (unpackLoop x y z (coords (blockLimit z)) fs).tiles = fs.tiles
    rw [unpackLoop_all_fail x y z _ fs hfail]

def fsE : FS := ⟨fun _ _ _ => none, fun _ _ _ => none⟩

theorem C9_witness :
    (process_unpack fsE 0 0 0).metas (metaBase 0) (metaBase 0) 0 = none ∧
    (process_unpack fsE 0 0 0).tiles = fsE.tiles :=
  ⟨(C9_unconditional_unlink fsE 0 0 0).1,
   (C9_unconditional_unlink fsE 0 0 0).2 (by decide)⟩

/-- C10: a slot whose index entry records size 0 makes `read_from_meta`
succeed with a count of 0 bytes (given a seekable offset, `< 2^63`), and
`process_unpack` treats every non-positive count as a failure: it writes no
standalone file for that slot, leaving that coordinate's tile entry exactly
as it was — in particular no zero-byte file is created. -/
theorem C10_zero_size_slot :
    (∀ (fs : FS) (x y z sz : Nat) (file : List Nat),
      fs.metas (metaBase x) (metaBase y) z = some file →
      structSize ≤ file.length →
      (file.take headerBufSize).take MAGIC_LEN = META_MAGIC →
      decodeCount (file.take headerBufSize) = metaCount →
      decodeSize (file.take headerBufSize) (index_within_meta x y) = 0 →
      decodeOffset (file.take headerBufSize) (index_within_meta x y) < OFF_MAX →
      read_from_meta fs x y z sz = (0, [])) ∧
    (∀ (fs : FS) (x y z : Nat) (p : Nat × Nat), p ∈ coords (blockLimit z) →
      (read_from_meta fs (x + p.1) (y + p.2) z BUF_UNPACK).1 ≤ 0 →
      (process_unpack fs x y z).tiles (x + p.1) (y + p.2) z =
        fs.tiles (x + p.1) (y + p.2) z) := by
  constructor
  · intro fs x y z sz file hfile hlen hmagic hcount hsize0 hoffmax
    unfold read_from_meta
    rw [hfile]
    dsimp only
    have e1 : structSize = 20 := rfl
    have e2 : headerBufSize = 4096 := rfl
    rw [if_neg (by omega), if_neg (fun h => h hmagic), if_neg (fun h => h hcount),
      if_neg (not_le.mpr hoffmax), hsize0]
    simp
  · intro fs x y z p hp hfail
    show (unpackLoop x y z (coords (blockLimit z)) fs).tiles (x + p.1) (y + p.2) z = _
    rw [unpackLoop_tiles_mem x y z _ fs (coords_pairwise_ne _) p hp, if_pos hfail]

def fileC10 : List Nat := encodeHeader metaCount 0 0 0 (fun _ => (0, 0))

def fsC10 : FS :=
  ⟨fun i j k => if i = 0 ∧ j = 0 ∧ k = 0 then some [5] else none,
   fun i j k => if i = 0 ∧ j = 0 ∧ k = 0 then some fileC10 else none⟩

set_option maxRecDepth 100000 in
theorem C10_witness :
    read_from_meta fsC10 0 0 0 BUF_UNPACK = (0, []) ∧
    (process_unpack fsC10 0 0 0).tiles 0 0 0 = fsC10.tiles 0 0 0 := by
  have h1 := C10_zero_size_slot.1 fsC10 0 0 0 BUF_UNPACK fileC10 rfl (by decide)
    (by decide) (by decide) (by decide) (by decide)
  refine ⟨h1, ?_⟩
  have h2 := C10_zero_size_slot.2 fsC10 0 0 0 (0, 0) (by decide) (by
    show (read_from_meta fsC10 0 0 0 BUF_UNPACK).1 ≤ 0
    rw [h1])
  exact h2

/-- C1 amended: on a block-aligned address whose `blockLimit z × blockLimit z`
sub-tiles all exist with distinct, non-empty contents, pack followed by
unpack reproduces byte-identical standalone files at the same addresses and
leaves no container file behind — provided additionally that each tile fits
the 1 MiB unpack staging buffer and the block's total payload, after the
header and index, fits the 10 MiB pack buffer (`C1_counterexample` shows
the round trip is lossy without the size provisos). -/
theorem C1_roundtrip (fs : FS) (x y z : Nat) (t : Nat → Nat → List Nat)
    (hx : x % METATILE = 0) (hy : y % METATILE = 0)
    (htiles : ∀ ox oy, ox < blockLimit z → oy < blockLimit z →
      fs.tiles (x + ox) (y + oy) z = some (t ox oy))
    (hne : ∀ ox oy, ox < blockLimit z → oy < blockLimit z → t ox oy ≠ [])
    (hdistinct : ∀ ox oy ox2 oy2, ox < blockLimit z → oy < blockLimit z →
      ox2 < blockLimit z → oy2 < blockLimit z → (ox, oy) ≠ (ox2, oy2) →
      t ox oy ≠ t ox2 oy2)
    (hsize : ∀ ox oy, ox < blockLimit z → oy < blockLimit z →
      (t ox oy).length ≤ BUF_UNPACK)
    (htotal : headerSize + sizesSum fs x y z (coords (blockLimit z)) ≤ BUF_PACK) :
    (∀ ox oy, ox < blockLimit z → oy < blockLimit z →
      (process_unpack (process_meta fs x y z) x y z).tiles (x + ox) (y + oy) z =
        some (t ox oy)) ∧
    (process_unpack (process_meta fs x y z) x y z).metas x y z = none :=
  pack_unpack_core fs x y z t hx hy htiles hne hsize htotal

def tC1 : Nat → Nat → List Nat := fun ox oy => [ox * 2 + oy + 1]

def fsC1w : FS :=
  ⟨fun i j k => if i < 2 ∧ j < 2 ∧ k = 1 then some [i * 2 + j + 1] else none,
   fun _ _ _ => none⟩

theorem C1_witness :
    (∀ ox oy, ox < blockLimit 1 → oy < blockLimit 1 →
      (process_unpack (process_meta fsC1w 0 0 1) 0 0 1).tiles (0 + ox) (0 + oy) 1 =
        some (tC1 ox oy)) ∧
    (process_unpack (process_meta fsC1w 0 0 1) 0 0 1).metas 0 0 1 = none :=
  C1_roundtrip fsC1w 0 0 1 tC1 (by decide) (by decide)
    (by
      intro ox oy h1 h2
      have h1a : ox < 2 := h1
      have h2a : oy < 2 := h2
      interval_cases ox <;> interval_cases oy <;> rfl)
    (by
      intro ox oy h1 h2
      have h1a : ox < 2 := h1
      have h2a : oy < 2 := h2
      interval_cases ox <;> interval_cases oy <;> decide)
    (by
      intro ox oy ox2 oy2 h1 h2 h3 h4
      have h1a : ox < 2 := h1
      have h2a : oy < 2 := h2
      have h3a : ox2 < 2 := h3
      have h4a : oy2 < 2 := h4
      interval_cases ox <;> interval_cases oy <;> interval_cases ox2 <;>
        interval_cases oy2 <;> decide)
    (by
      intro ox oy h1 h2
      have h1a : ox < 2 := h1
      have h2a : oy < 2 := h2
      interval_cases ox <;> interval_cases oy <;> decide)
    (by decide)

def tBig : List Nat := List.replicate (BUF_UNPACK + 1) 7

def fsC1 : FS :=
  ⟨fun i j k => if i = 0 ∧ j = 0 ∧ k = 0 then some tBig else none,
   fun _ _ _ => none⟩

set_option maxRecDepth 100000 in
/-- C1 counterexample: at the block-aligned address `(0, 0, 0)` (`limit = 1`)
the single sub-tile exists with non-empty — and vacuously distinct —
contents of `BUF_UNPACK + 1` bytes.  The claim as stated, with no size
bound, fails here: pack succeeds, but unpack's 1 MiB staging buffer clamps
the read, so the reproduced standalone file drops the final byte and is not
byte-identical. -/
theorem C1_counterexample :
    ((0 : Nat) % METATILE = 0 ∧ fsC1.tiles 0 0 0 = some tBig ∧ tBig ≠ []) ∧
    ¬ ((∀ ox oy, ox < blockLimit 0 → oy < blockLimit 0 →
        (process_unpack (process_meta fsC1 0 0 0) 0 0 0).tiles (0 + ox) (0 + oy) 0 =
          some tBig) ∧
      (process_unpack (process_meta fsC1 0 0 0) 0 0 0).metas 0 0 0 = none) := by
  have hlen : tBig.length = BUF_UNPACK + 1 := List.length_replicate _ _
  have htne : tBig ≠ [] := by
    intro h
    have h2 := congrArg List.length h
    rw [hlen] at h2
    simp at h2
  refine ⟨⟨by decide, rfl, htne⟩, ?_⟩
  rintro ⟨hall, -⟩
  have hres := hall 0 0 (by decide) (by decide)
  rw [process_unpack_tiles] at hres
  have hcs : coords (blockLimit 0) = [(0, 0)] := rfl
  have hp : ∀ p ∈ coords (blockLimit 0),
      ∃ tp, fsC1.tiles (0 + p.1) (0 + p.2) 0 = some tp ∧ tp ≠ [] := by
    rw [hcs]
    intro p hpmem
    rw [List.mem_singleton] at hpmem
    subst hpmem
    exact ⟨tBig, rfl, htne⟩
  have hsum : sizesSum fsC1 0 0 0 (coords (blockLimit 0)) = tBig.length := by
    rw [hcs, sizesSum_cons, sizesSum_nil,
      show fsC1.tiles (0 + (0, 0).1) (0 + (0, 0).2) 0 = some tBig from rfl,
      Option.getD_some, Nat.add_zero]
  have htotal : initState.offset + sizesSum fsC1 0 0 0 (coords (blockLimit 0)) ≤
      BUF_PACK := by
    rw [hsum, hlen]
    decide
  obtain ⟨st, hloop, hpay, hoffst, hunch, hsplit⟩ :=
    packLoop_spec fsC1 0 0 0 (coords (blockLimit 0)) initState hp htotal
      (slots_pairwise 0 0 0)
  have hpack : packResult fsC1 0 0 0 = some st := hloop
  have hfsP : (process_meta fsC1 0 0 0).metas =
      update3 fsC1.metas 0 0 0
        (some (encodeHeader metaCount 0 0 0 st.entries ++ st.payload)) := by
    rw [process_meta_eq_of_some hpack, unlinkLoop_metas]
    rfl
  have hkey : (process_meta fsC1 0 0 0).metas (metaBase (0 + 0)) (metaBase (0 + 0)) 0 =
      some (encodeHeader metaCount 0 0 0 st.entries ++ st.payload) := by
    rw [show metaBase (0 + 0) = 0 from rfl, hfsP, update3_self]
  have hentry0 : st.entries (index_within_meta (0 + 0) (0 + 0)) =
      (headerSize, tBig.length) := by
    have h3 := hsplit [] (0, 0) [] (by rw [hcs]; rfl)
    dsimp only at h3
    rw [show fsC1.tiles (0 + 0) (0 + 0) 0 = some tBig from rfl, Option.getD_some,
      sizesSum_nil, Nat.add_zero, show initState.offset = headerSize from rfl] at h3
    exact h3
  have hoffb : (st.entries (index_within_meta (0 + 0) (0 + 0))).1 < OFF_MAX := by
    rw [hentry0]
    show headerSize < OFF_MAX
    decide
  have hsizb : (st.entries (index_within_meta (0 + 0) (0 + 0))).2 < 256 ^ WIDE_SIZE := by
    rw [hentry0]
    show tBig.length < 256 ^ WIDE_SIZE
    rw [hlen]
    decide
  have hreadeq := read_from_meta_encoded BUF_UNPACK hkey hoffb hsizb
  have hpayeq : st.payload = tBig := by
    rw [hpay, hcs]
    simp only [initState, List.flatMap_cons, List.flatMap_nil, List.append_nil,
      List.nil_append]
    rw [show fsC1.tiles (0 + (0, 0).1) (0 + (0, 0).2) 0 = some tBig from rfl,
      Option.getD_some]
  have hdropfile : (encodeHeader metaCount 0 0 0 st.entries ++ st.payload).drop
      headerSize = st.payload := List.drop_left' (encodeHeader_length _ _ _ _ _)
  have hdata : ((encodeHeader metaCount 0 0 0 st.entries ++ st.payload).drop
      (st.entries (index_within_meta (0 + 0) (0 + 0))).1).take
        (min (st.entries (index_within_meta (0 + 0) (0 + 0))).2 BUF_UNPACK) =
      List.replicate BUF_UNPACK 7 := by
    rw [hentry0]
    dsimp only
    rw [hdropfile, hpayeq, hlen, Nat.min_eq_right (by omega)]
    unfold tBig
    rw [List.take_replicate, Nat.min_eq_left (by omega)]
  have hread0 : read_from_meta (process_meta fsC1 0 0 0) (0 + 0) (0 + 0) 0 BUF_UNPACK =
      ((BUF_UNPACK : Int), List.replicate BUF_UNPACK 7) := by
    rw [hreadeq]
    dsimp only
    rw [hdata, List.length_replicate]
  have hfinal := unpackLoop_tiles_mem 0 0 0 (coords (blockLimit 0))
    (process_meta fsC1 0 0 0) (coords_pairwise_ne _) (0, 0) (by decide)
  dsimp only at hfinal
  rw [hread0, if_neg (by decide)] at hfinal
  rw [hfinal] at hres
  have hrep : List.replicate BUF_UNPACK 7 = tBig := by injection hres
  have hlen2 := congrArg List.length hrep
  rw [List.length_replicate, hlen] at hlen2
  omega

end Store
